import Mathlib

/-
Verification of the Moby contact-dynamics core against its specification.

The development shallowly embeds, over exact rational arithmetic, the parts of
the source that the checked properties are about:

  - the narrowphase contact emitters for sphere/sphere and box/sphere pairs
    (include/Moby/CCD.inl);
  - the constraint-stabilization merit function compute_s and
    get_min_pairwise_dist (src/ConstraintStabilization.cpp);
  - the conservative-advancement event-time computation
    calc_next_CA_Euler_step and the position-integration loop of do_mini_step
    (src/TimeSteppingSimulator.cpp);
  - Lemke's algorithm, its sparse variant, and the regularized wrapper
    (src/LCP.cpp).

Machine doubles are modelled by rationals; the machine epsilon and DBL_MAX
below are the exact rational values of the corresponding double constants.
External collaborators (the Ravelin linear-algebra backend, the collision
facade, pose transforms) are modelled at their interfaces: the linear solver
used by Lemke's algorithm is an explicit function parameter, and concrete
evaluations instantiate it with an exact Gaussian-elimination solver.
-/

set_option maxRecDepth 10000

attribute [local semireducible] Rat.add Rat.sub Rat.mul Rat.inv

namespace Moby

/-- Machine epsilon for IEEE-754 doubles, as an exact rational: one over
2 to the 52nd power. -/
def eps : ℚ := 1 / 4503599627370496

/-- Largest finite IEEE-754 double, as an exact rational.  This is the value
of std DBL_MAX, used by the driver as the "+infinity" sentinel; written as
an explicit numeral (it equals (2 to the 53rd minus 1) times 2 to the
971st). -/
def DBL_MAX : ℚ := 179769313486231570814527423731704356798070567525844996598917476803157260780028538760589558632766878171540458953514382464234321326889464182768467546703537516986049910576551282076245490090389328944075868508455133942304583236903222948165808559332123348274797826204144723168738177180919299881250404026184124858368

/-- The NEAR_ZERO constant of Moby/Constants.h (not under src/).
Modelled from the spec: a small machine-derived positive constant, the square
root of machine epsilon (one over 2 to the 26th power).  The theorems below
do not depend on its exact value, only on its positivity. -/
def NEAR_ZERO : ℚ := 1 / 67108864

/-! ## Three-dimensional points and vectors (exact rational coordinates) -/

/-- A 3-vector with rational coordinates. -/
structure Vec3 where
  x : ℚ
  y : ℚ
  z : ℚ
deriving DecidableEq

namespace Vec3

def add (a b : Vec3) : Vec3 := ⟨a.x + b.x, a.y + b.y, a.z + b.z⟩

def sub (a b : Vec3) : Vec3 := ⟨a.x - b.x, a.y - b.y, a.z - b.z⟩

def smul (c : ℚ) (a : Vec3) : Vec3 := ⟨c * a.x, c * a.y, c * a.z⟩

/-- Squared Euclidean norm. -/
def normSq (a : Vec3) : ℚ := a.x * a.x + a.y * a.y + a.z * a.z

end Vec3

/-- A contact record as produced by the sphere/sphere emitter: world point and
unit contact normal (the normal is exact on the emitting path, see below). -/
structure Contact where
  point : Vec3
  normal : Vec3
deriving DecidableEq

/-- A contact record as produced by the box/sphere emitter.  The source
computes the normal by Ravelin Vector3d normalize, an external routine that
scales by the positive factor one over the norm; the embedding stores the
un-normalized direction vector instead, which determines the normal up to
that positive factor. -/
structure BoxSphereContact where
  point : Vec3
  normalDir : Vec3
deriving DecidableEq

/-- CCD find_contacts_sphere_sphere (include/Moby/CCD.inl, lines 388-430),
with the two sphere centers already expressed in the global frame (the source
obtains them through external pose updates).

The source guard is the line

  if (d.norm() - sA->get_radius() - sB->get_radius()) return o;

whose condition is a double used as a boolean: the emitter continues only
when the norm of d equals rA + rB exactly.  For nonnegative rA + rB that
equality is equivalent to normSq d = (rA + rB)^2, which is how the guard is
rendered here (exactly, with no square roots).  On the emitting path the norm
of d equals rA + rB, so normalize(d) is d scaled by one over (rA + rB); the
degenerate rA + rB = 0 case is mapped to the zero vector. -/
def find_contacts_sphere_sphere (cA cB : Vec3) (rA rB : ℚ) : List Contact :=
  let d := Vec3.sub cA cB
  if Vec3.normSq d ≠ (rA + rB) ^ 2 then []
  else
    let n := if rA + rB = 0 then ⟨0, 0, 0⟩ else Vec3.smul (1 / (rA + rB)) d
    let closestA := Vec3.sub cA (Vec3.smul rA n)
    let closestB := Vec3.add cB (Vec3.smul rB n)
    let p := Vec3.smul (1 / 2) (Vec3.add closestA closestB)
    [⟨p, n⟩]

/-- CCD find_contacts_box_sphere (include/Moby/CCD.inl, lines 432-475).
The closest-point query calc_closest_points is an external primitive query;
its outputs - the signed distance and the two closest points, already
transformed to the global frame - are taken as arguments.  The structure is
exactly the source's:

  if (dist < NEAR_ZERO) return o;          (early exit)
  if (dist > 0)  emit midpoint contact with direction pbox - psph;
  else           emit the sphere point with the transformed-psph direction.

Note that after the early exit dist is at least NEAR_ZERO, so for positive
NEAR_ZERO the else branch is unreachable. -/
def find_contacts_box_sphere (dist : ℚ) (pbox psph : Vec3) (nearZero : ℚ) :
    List BoxSphereContact :=
  if dist < nearZero then []
  else if dist > 0 then
    [⟨Vec3.smul (1 / 2) (Vec3.add psph pbox), Vec3.sub pbox psph⟩]
  else
    [⟨psph, psph⟩]

/-! ## Constraint-stabilization merit function -/

/-- ConstraintStabilization get_min_pairwise_dist
(src/ConstraintStabilization.cpp, lines 34-43): minimum of the pairwise
signed distances, starting from DBL_MAX. -/
def get_min_pairwise_dist (pdi : List ℚ) : ℚ :=
  pdi.foldl min DBL_MAX

/-- Joint state as read by compute_s: number of degrees of freedom, joint
coordinates and per-DOF lower and upper position limits. -/
structure JointS where
  numDof : Nat
  q : List ℚ
  lolimit : List ℚ
  hilimit : List ℚ

/-- Default joint used for the source's out-of-range vector accesses. -/
def JointS.dflt : JointS := ⟨0, [], [], []⟩

/-- ConstraintStabilization compute_s (src/ConstraintStabilization.cpp,
lines 515-544).  The first argument is the list of pairwise signed distances;
the second is the body list, with some joints for an articulated body and
none otherwise (rendering the dynamic cast).

The embedding keeps the source exactly as written, including its index
usage: the outer loop index i over bodies is also used to select the joint
(joints[i]), the joint loop index j selects the coordinate and the limits
(q[j], hilimit[j], lolimit[j]), and the innermost index k only counts
num_dof iterations.  The three-argument std max of the source is rendered as
max (max a b) s, and out-of-range accesses default to zero entries.  None of
this matters to the theorems below, which use an empty body list.

The first line of the source is

  double s = std::max(get_min_pairwise_dist(pdi), 0.0);

the minimum distance itself, not its negation. -/
def compute_s (pdi : List ℚ) (bodies : List (Option (List JointS))) : ℚ :=
  let s0 := max (get_min_pairwise_dist pdi) 0
  bodies.enum.foldl (fun s ib =>
    match ib.2 with
    | none => s
    | some joints =>
      (List.range joints.length).foldl (fun s j =>
        let jt := joints.getD ib.1 JointS.dflt
        (List.range jt.numDof).foldl (fun s _k =>
          let qv := jt.q.getD j 0
          max (max (qv - jt.hilimit.getD j 0) (jt.lolimit.getD j 0 - qv)) s) s) s)
    s0

/-! ## Conservative-advancement event times (TimeSteppingSimulator) -/

/-- Joint state as read by calc_next_CA_Euler_step: DOF count, coordinates,
velocities and position limits per DOF. -/
structure JointCA where
  numDof : Nat
  q : List ℚ
  qd : List ℚ
  lolimit : List ℚ
  hilimit : List ℚ
deriving DecidableEq

/-- A pairwise-distance record as read by calc_next_CA_Euler_step: the
compliance flags of the two rigid bodies (true when the body's compliance is
eCompliant) and the conservative-advancement step produced for this pair by
the external collision facade's calc_CA_Euler_step. -/
structure PDICA where
  compliantA : Bool
  compliantB : Bool
  caStep : ℚ
deriving DecidableEq

/-- TimeSteppingSimulator calc_next_CA_Euler_step
(src/TimeSteppingSimulator.cpp, lines 272-331).  The articulated bodies are
given by their joint lists (non-articulated bodies are skipped by the source
cast and do not appear); the pairwise-distance records carry the facade's
conservative-advancement step.  next_event_time starts from DBL_MAX; each
joint DOF approaching a limit and each pairwise record whose bodies are both
non-compliant lowers it by a min. -/
def calc_next_CA_Euler_step (arts : List (List JointCA)) (pdis : List PDICA) : ℚ :=
  let afterJoints :=
    arts.foldl (fun acc joints =>
      joints.foldl (fun acc jt =>
        (List.range jt.numDof).foldl (fun acc j =>
          let acc1 :=
            if jt.q.getD j 0 < jt.hilimit.getD j 0 ∧ 0 < jt.qd.getD j 0 then
              min acc ((jt.hilimit.getD j 0 - jt.q.getD j 0) / jt.qd.getD j 0)
            else acc
          if jt.lolimit.getD j 0 < jt.q.getD j 0 ∧ jt.qd.getD j 0 < 0 then
            min acc1 ((jt.lolimit.getD j 0 - jt.q.getD j 0) / jt.qd.getD j 0)
          else acc1) acc) acc) DBL_MAX
  pdis.foldl (fun acc p =>
    if p.compliantA || p.compliantB then acc else min acc p.caStep) afterJoints

/-- The candidate event times contributed by one joint DOF: the time to the
upper limit when moving up below it, and the time to the lower limit when
moving down above it (specification 4.5, conservative-advancement
contract). -/
def dof_limit_candidates (jt : JointCA) (j : Nat) : List ℚ :=
  (if jt.q.getD j 0 < jt.hilimit.getD j 0 ∧ 0 < jt.qd.getD j 0 then
    [(jt.hilimit.getD j 0 - jt.q.getD j 0) / jt.qd.getD j 0] else []) ++
  (if jt.lolimit.getD j 0 < jt.q.getD j 0 ∧ jt.qd.getD j 0 < 0 then
    [(jt.lolimit.getD j 0 - jt.q.getD j 0) / jt.qd.getD j 0] else [])

/-- All joint-limit candidate event times of the scene, in source traversal
order. -/
def joint_limit_candidates (arts : List (List JointCA)) : List ℚ :=
  arts.flatMap (fun joints => joints.flatMap (fun jt =>
    (List.range jt.numDof).flatMap (dof_limit_candidates jt)))

/-- The facade conservative-advancement steps of the pairwise records in
which neither body is compliant. -/
def rigid_pair_candidates (pdis : List PDICA) : List ℚ :=
  (pdis.filter (fun p => !(p.compliantA || p.compliantB))).map (fun p => p.caStep)

/-! ## Position-integration loop of do_mini_step -/

/-- Per-body dynamic state: generalized coordinates in the Euler encoding,
and the generalized velocity in its two encodings (Euler and spatial). -/
structure BodyState where
  qcoord : List ℚ
  veuler : List ℚ
  vspatial : List ℚ

/-- Driver state as seen by the position-integration loop: the bodies and the
pairwise-distance cache refreshed by the collision facade. -/
structure SimState where
  bodies : List BodyState
  pdis : List PDICA

/-- The per-body position update of do_mini_step's loop
(src/TimeSteppingSimulator.cpp, lines 156-164): restore the saved
coordinates, read the Euler-encoded generalized velocity, scale it by
h + tc, add the saved coordinates and store the result as the new
coordinates.  The index i tracks the body's position in qsave. -/
def integrate_positions (h tc : ℚ) (qsave : List (List ℚ)) :
    Nat → List BodyState → List BodyState
  | _, [] => []
  | i, b :: rest =>
    let qs := qsave.getD i []
    let b1 : BodyState := ⟨qs, b.veuler, b.vspatial⟩
    let q := List.zipWith (fun vv qq => vv * (h + tc) + qq) b1.veuler qs
    ⟨q, b1.veuler, b1.vspatial⟩ :: integrate_positions h tc qsave (i + 1) rest

/-- The position-integration loop of do_mini_step
(src/TimeSteppingSimulator.cpp, lines 133-168).  External collaborators are
modelled at their interfaces: broad_phase writes only the broadphase cache,
which lies outside the modelled state (spec 4.5 and 5); calc_pairwise_distances
refreshes the pairwise-distance cache and is modelled from the spec as an
arbitrary function of the state producing the new cache;
calc_next_CA_Euler_step with the contact distance threshold is modelled as an
arbitrary rational-valued function caStepF of the state.  fuel bounds the
number of iterations of the while loop; the claims proved below hold for
every fuel. -/
def position_integration_loop (calcPairwise : SimState → List PDICA)
    (caStepF : SimState → ℚ) (minStep dt : ℚ) (qsave : List (List ℚ)) :
    Nat → ℚ → SimState → SimState × ℚ
  | 0, h, s => (s, h)
  | fuel + 1, h, s =>
    if h < dt then
      let s1 : SimState := ⟨s.bodies, calcPairwise s⟩
      if caStepF s1 ≤ 0 then (s1, h)
      else
        let tc := min (dt - h) (max minStep (caStepF s1))
        let s2 : SimState := ⟨integrate_positions h tc qsave 0 s1.bodies, s1.pdis⟩
        position_integration_loop calcPairwise caStepF minStep dt qsave fuel (h + tc) s2
    else (s, h)

/-! ## LCP solver: Lemke's algorithm and the regularized wrapper

Vectors are lists of exact rationals; matrices are stored column-major (a
list of column vectors), which matches the column operations of the source
(get_column, set_column, building the basis matrix from selected columns).
The Ravelin linear-algebra backend (solve_fast with its least-squares
fall-throughs, solve_sparse_direct) is an external collaborator; it is
modelled as an explicit function parameter lsolve that returns a solution of
B x = rhs.  Concrete evaluations instantiate lsolve with the exact
elimination solver gauss_solve below, which agrees with the backend on the
nonsingular systems arising there. -/

/-- Vectors over exact rationals. -/
abbrev Vec := List ℚ

/-- Column-major matrices over exact rationals. -/
abbrev Mat := List Vec

/-- Elementwise negation. -/
def negV (v : Vec) : Vec := v.map (fun a => -a)

/-- Elementwise addition (zipWith semantics, as lengths always agree in the
translated code paths). -/
def addV (a b : Vec) : Vec := List.zipWith (· + ·) a b

/-- Scalar multiple. -/
def smulV (c : ℚ) (v : Vec) : Vec := v.map (fun a => c * a)

/-- Dot product. -/
def dotV (a b : Vec) : ℚ := (List.zipWith (· * ·) a b).sum

/-- Minimum element of a list (the source always applies min_element to
nonempty ranges; the empty case returns 0). -/
def minList : Vec → ℚ
  | [] => 0
  | x :: xs => xs.foldl min x

/-- Maximum element of a list. -/
def maxList : Vec → ℚ
  | [] => 0
  | x :: xs => xs.foldl max x

/-- Index of the first strictly smallest element, as std min_element
computes it (later ties do not replace the current best). -/
def idxOfMinAux : Nat → Nat → ℚ → List ℚ → Nat
  | _, best, _, [] => best
  | i, best, bv, x :: xs =>
    if x < bv then idxOfMinAux (i + 1) i x xs else idxOfMinAux (i + 1) best bv xs

/-- Index of the first minimum of a list (0 on the empty list). -/
def idxOfMin : List ℚ → Nat
  | [] => 0
  | x :: xs => idxOfMinAux 1 0 x xs

/-- Index of the first strictly largest element, as std max_element
computes it. -/
def idxOfMaxAux : Nat → Nat → ℚ → List ℚ → Nat
  | _, best, _, [] => best
  | i, best, bv, x :: xs =>
    if bv < x then idxOfMaxAux (i + 1) i x xs else idxOfMaxAux (i + 1) best bv xs

/-- Index of the first maximum of a list (0 on the empty list). -/
def idxOfMax : List ℚ → Nat
  | [] => 0
  | x :: xs => idxOfMaxAux 1 0 x xs

/-- Infinity norm of a vector: the largest absolute entry. -/
def normInfVec (v : Vec) : ℚ := maxList (v.map abs)

/-- Infinity norm of an n-row column-major matrix: the largest absolute row
sum. -/
def normInfMat (M : Mat) (n : Nat) : ℚ :=
  maxList (M.foldl (fun acc col => List.zipWith (· + ·) acc (col.map abs))
    (List.replicate n 0))

/-- Column j of a column-major matrix. -/
def getCol (M : Mat) (j : Nat) : Vec := M.getD j []

/-- Matrix-vector product for an n-row column-major matrix: the linear
combination of the columns weighted by the vector entries. -/
def mulMV (M : Mat) (v : Vec) (n : Nat) : Vec :=
  (List.zipWith (fun col a => smulV a col) M v).foldl addV (List.replicate n 0)

/-- Entries of v at the listed indices (select of the source). -/
def selectIdx (v : Vec) (idxs : List Nat) : Vec := idxs.map (fun i => v.getD i 0)

/-- The negated n-by-n identity, column-major. -/
def negIdent (n : Nat) : Mat :=
  (List.range n).map (fun i => (List.range n).map (fun r => if r = i then (-1 : ℚ) else 0))

/-- Scatter of the basic solution into z: z is zeroed at size 2n, entry
bas[idx] receives x[idx], and z is truncated to its first n entries
(z.resize(n, true) of the source keeps the prefix). -/
def scatterZ (n : Nat) (bas : List Nat) (x : Vec) : Vec :=
  ((List.zip bas x).foldl (fun z p => z.set p.1 p.2) (List.replicate (2 * n) 0)).take n

/-- Moves the first row with a nonzero leading coefficient to the front,
keeping the order of the others; none if no such row exists. -/
def splitPivot : List (Vec × ℚ) → Option ((Vec × ℚ) × List (Vec × ℚ))
  | [] => none
  | r :: rs =>
    if r.1.headD 0 ≠ 0 then some (r, rs)
    else
      match splitPivot rs with
      | none => none
      | some (p, rest) => some (p, r :: rest)

/-- Exact Gaussian elimination with back substitution on rows paired with
their right-hand sides; the fuel argument is the system dimension, making
the recursion structural.  Returns none on a singular leading submatrix. -/
def gsolve : Nat → List (Vec × ℚ) → Option Vec
  | 0, _ => some []
  | n + 1, rows =>
    match splitPivot rows with
    | none => none
    | some (p, rest) =>
      let a := p.1.headD 0
      let reduced := rest.map (fun r =>
        let f := r.1.headD 0 / a
        (List.zipWith (fun x y => x - f * y) r.1.tail p.1.tail, r.2 - f * p.2))
      match gsolve n reduced with
      | none => none
      | some xs => some (((p.2 - dotV p.1.tail xs) / a) :: xs)

/-- Exact linear solve of M x = b for a column-major square matrix, used to
instantiate the abstract backend in concrete evaluations.  On the
nonsingular systems of those evaluations it returns the unique solution,
matching the external backend; the singular fall-through of the backend
(SVD least squares) is immaterial there and mapped to the zero vector. -/
def gauss_solve (M : Mat) (b : Vec) : Vec :=
  let n := b.length
  let rows := (List.range n).map (fun i => (M.map (fun col => col.getD i 0), b.getD i 0))
  match gsolve n rows with
  | some x => x
  | none => List.replicate n 0

/-- The ratio test of the dense pivoting loop (src/LCP.cpp, lines 358-424):
collect the candidate rows with pivot-column entry above the pivot tolerance
(ray termination when empty), compute theta as the least (x_i + zero_tol)/d_i
over them, keep rows with x_i/d_i at most theta (tolerance-too-low failure
when empty), then choose the row holding the artificial variable t if
present, else the row of largest d.  Returns the chosen row index, or none
on either failure exit. -/
def ratio_test (x dl : Vec) (bas : List Nat) (t : Nat) (pivTolEff zeroTol : ℚ) :
    Option Nat :=
  let j := (List.range dl.length).filter (fun i => pivTolEff < dl.getD i 0)
  if j = [] then none
  else
    let xj := selectIdx x j
    let dj := selectIdx dl j
    let theta := minList (List.zipWith (fun xv dv => (xv + zeroTol) / dv) xj dj)
    let j2 := j.filter (fun i => x.getD i 0 / dl.getD i 0 ≤ theta)
    if j2 = [] then none
    else
      let tlist := j2.map (fun i => bas.getD i 0)
      let lvpos := if t ∈ tlist then tlist.indexOf t
                   else idxOfMax (selectIdx dl j2)
      some (j2.getD lvpos 0)

/-- The ratio test of the sparse pivoting loop (src/LCP.cpp, lines 643-709).
It differs from the dense one in a single place, mirroring the source: the
entries divided into theta and the retention filter are selected from the
member _d - stale data never written by this function, passed here as
dStale - instead of the freshly solved column _dl (line 664 selects from _d).
The tie-break at lines 700-706 re-selects from _dl as in the dense loop. -/
def ratio_test_sp (x dl dStale : Vec) (bas : List Nat) (t : Nat)
    (pivTolEff zeroTol : ℚ) : Option Nat :=
  let j := (List.range dl.length).filter (fun i => pivTolEff < dl.getD i 0)
  if j = [] then none
  else
    let xj := selectIdx x j
    let dj := selectIdx dStale j
    let theta := minList (List.zipWith (fun xv dv => (xv + zeroTol) / dv) xj dj)
    let j2 := j.filter (fun i => x.getD i 0 / dStale.getD i 0 ≤ theta)
    if j2 = [] then none
    else
      let tlist := j2.map (fun i => bas.getD i 0)
      let lvpos := if t ∈ tlist then tlist.indexOf t
                   else idxOfMax (selectIdx dl j2)
      some (j2.getD lvpos 0)

/-- The pivoting loop of the dense LCP::lcp_lemke (src/LCP.cpp, lines
296-446).  Arguments after the fixed data: remaining fuel (the source runs
the loop for at most MAXITER iterations; fuel exhaustion is the
max-iterations-exceeded exit returning failure), current basic solution x,
basis matrix Bl, basic index list bas, the leaving variable, and the number
of pivots performed so far.  Returns (success, z, pivot count). -/
def lemkeLoop (lsolve : Mat → Vec → Vec) (M : Mat) (n : Nat) (pivTol zeroTol : ℚ) :
    Nat → Vec → Mat → List Nat → Nat → Nat → Bool × Vec × Nat
  | 0, _x, _Bl, _bas, _leaving, pivots => (false, List.replicate n 0, pivots)
  | fuel + 1, x, Bl, bas, leaving, pivots =>
    if leaving = 2 * n then (true, scatterZ n bas x, pivots)
    else
      let entBe : Nat × Vec :=
        if leaving < n then
          (n + leaving, (List.range n).map (fun r => if r = leaving then (-1 : ℚ) else 0))
        else (leaving - n, getCol M (leaving - n))
      let dl := lsolve Bl entBe.2
      let PIV_TOL := if 0 < pivTol then pivTol else eps * n * max 1 (normInfVec entBe.2)
      match ratio_test x dl bas (2 * n) PIV_TOL zeroTol with
      | none => (false, List.replicate n 0, pivots)
      | some lvindex =>
        let leaving2 := bas.getD lvindex 0
        let rr := x.getD lvindex 0 / dl.getD lvindex 0
        let x2 := (List.zipWith (fun xv dv => xv - dv * rr) x dl).set lvindex rr
        lemkeLoop lsolve M n pivTol zeroTol fuel x2 (Bl.set lvindex entBe.2)
          (bas.set lvindex entBe.1) leaving2 (pivots + 1)

/-- Dense LCP::lcp_lemke (src/LCP.cpp, lines 141-447).  The z argument is
the caller's warm start (the source reads it as the initial guess z0 and
overwrites it with the solution; here the solution is returned).  Returns
(success, z, number of pivot iterations performed). -/
def lcp_lemke (lsolve : Mat → Vec → Vec) (M : Mat) (q z : Vec)
    (pivTol zeroTol : ℚ) : Bool × Vec × Nat :=
  let n := q.length
  if n = 0 then (true, [], 0)
  else
    let MAXITER := min 1000 (50 * n)
    let zt := if zeroTol ≤ 0 then eps * normInfMat M n * n else zeroTol
    if -zt < minList q then (true, List.replicate n 0, 0)
    else
      let useGuess := z.length = n
      let bas := if useGuess then (List.range n).filter (fun i => 0 < z.getD i 0) else []
      let nonbas :=
        if useGuess then (List.range n).filter (fun i => ¬ 0 < z.getD i 0)
        else List.range n
      let Bl := if bas = [] then negIdent n
                else bas.map (fun i => getCol M i) ++
                     nonbas.map (fun i => getCol (negIdent n) i)
      let x := negV (lsolve Bl q)
      if x.all (fun v => ¬ v < 0) then (true, scatterZ n bas x, 0)
      else
        let xn := x.take n
        let tval := -(minList xn)
        let lvindex := idxOfMin xn
        let bas2 := bas ++ nonbas.map (fun i => i + n)
        let leaving := bas2.getD lvindex 0
        let u := x.map (fun v => if v < 0 then (1 : ℚ) else 0)
        let Be := negV (mulMV Bl u n)
        let x2 := (List.zipWith (fun xv uv => xv + uv * tval) x u).set lvindex tval
        lemkeLoop lsolve M n pivTol zt MAXITER x2 (Bl.set lvindex Be)
          (bas2.set lvindex (2 * n)) leaving 0

/-- The pivoting loop of the sparse LCP::lcp_lemke (src/LCP.cpp, lines
601-731): as the dense loop, but with the sparse ratio test (which reads the
stale member _d, argument dStale). -/
def lemkeLoopSp (lsolve : Mat → Vec → Vec) (M : Mat) (n : Nat)
    (pivTol zeroTol : ℚ) (dStale : Vec) :
    Nat → Vec → Mat → List Nat → Nat → Nat → Bool × Vec × Nat
  | 0, _x, _Bl, _bas, _leaving, pivots => (false, List.replicate n 0, pivots)
  | fuel + 1, x, Bl, bas, leaving, pivots =>
    if leaving = 2 * n then (true, scatterZ n bas x, pivots)
    else
      let entBe : Nat × Vec :=
        if leaving < n then
          (n + leaving, (List.range n).map (fun r => if r = leaving then (-1 : ℚ) else 0))
        else (leaving - n, getCol M (leaving - n))
      let dl := lsolve Bl entBe.2
      let PIV_TOL := if 0 < pivTol then pivTol else eps * n * max 1 (normInfVec entBe.2)
      match ratio_test_sp x dl dStale bas (2 * n) PIV_TOL zeroTol with
      | none => (false, List.replicate n 0, pivots)
      | some lvindex =>
        let leaving2 := bas.getD lvindex 0
        let rr := x.getD lvindex 0 / dl.getD lvindex 0
        let x2 := (List.zipWith (fun xv dv => xv - dv * rr) x dl).set lvindex rr
        lemkeLoopSp lsolve M n pivTol zeroTol dStale fuel x2 (Bl.set lvindex entBe.2)
          (bas.set lvindex entBe.1) leaving2 (pivots + 1)

/-- Sparse LCP::lcp_lemke (src/LCP.cpp, lines 454-732), on the same
column-major value representation (the sparse storage only changes how the
same matrix values are held).  Differences from the dense variant, as in the
source: when the warm-start basis is nonempty the non-basic columns of the
basis matrix are positive identity columns (line 539 inserts +1.0, where the
dense code selects columns of -I); the backend solve has no least-squares
fall-through; and the ratio test reads the stale member _d (argument
dStale). -/
def lcp_lemke_sp (lsolve : Mat → Vec → Vec) (M : Mat) (q z : Vec)
    (pivTol zeroTol : ℚ) (dStale : Vec) : Bool × Vec × Nat :=
  let n := q.length
  if n = 0 then (true, [], 0)
  else
    let MAXITER := min 1000 (50 * n)
    let zt := if zeroTol ≤ 0 then eps * normInfMat M n * n else zeroTol
    if -zt < minList q then (true, List.replicate n 0, 0)
    else
      let useGuess := z.length = n
      let bas := if useGuess then (List.range n).filter (fun i => 0 < z.getD i 0) else []
      let nonbas :=
        if useGuess then (List.range n).filter (fun i => ¬ 0 < z.getD i 0)
        else List.range n
      let Bl := if bas = [] then negIdent n
                else bas.map (fun i => getCol M i) ++
                     nonbas.map (fun i =>
                       (List.range n).map (fun r => if r = i then (1 : ℚ) else 0))
      let x := negV (lsolve Bl q)
      if x.all (fun v => ¬ v < 0) then (true, scatterZ n bas x, 0)
      else
        let xn := x.take n
        let tval := -(minList xn)
        let lvindex := idxOfMin xn
        let bas2 := bas ++ nonbas.map (fun i => i + n)
        let leaving := bas2.getD lvindex 0
        let u := x.map (fun v => if v < 0 then (1 : ℚ) else 0)
        let Be := negV (mulMV Bl u n)
        let x2 := (List.zipWith (fun xv uv => xv + uv * tval) x u).set lvindex tval
        lemkeLoopSp lsolve M n pivTol zt dStale MAXITER x2 (Bl.set lvindex Be)
          (bas2.set lvindex (2 * n)) leaving 0

/-- w = M z + q for an n-row matrix, n the length of q. -/
def wVec (Mm : Mat) (q z : Vec) : Vec := addV (mulMV Mm z q.length) q

/-- The elementwise products z_i w_i that the wrapper's verification
inspects. -/
def prodZW (z w : Vec) : Vec := List.zipWith (· * ·) z w

/-- The verification block of lcp_lemke_regularized for the unregularized
attempt (src/LCP.cpp, lines 62-79): min z at least -tol, min (M z + q) at
least -tol, and every product z_i w_i in [-tol, tol). -/
def verify_ge (Mm : Mat) (q z : Vec) (zt : ℚ) : Prop :=
  -zt ≤ minList z ∧ -zt ≤ minList (wVec Mm q z) ∧
    -zt ≤ minList (prodZW z (wVec Mm q z)) ∧ maxList (prodZW z (wVec Mm q z)) < zt

instance (Mm : Mat) (q z : Vec) (zt : ℚ) : Decidable (verify_ge Mm q z zt) := by
  unfold verify_ge; infer_instance

/-- The verification block for a regularized attempt (src/LCP.cpp, lines
100-121): as verify_ge but with strict lower comparisons. -/
def verify_gt (Mm : Mat) (q z : Vec) (zt : ℚ) : Prop :=
  -zt < minList z ∧ -zt < minList (wVec Mm q z) ∧
    -zt < minList (prodZW z (wVec Mm q z)) ∧ maxList (prodZW z (wVec Mm q z)) < zt

instance (Mm : Mat) (q z : Vec) (zt : ℚ) : Decidable (verify_gt Mm q z zt) := by
  unfold verify_gt; infer_instance

/-- M with lambda added on the diagonal (src/LCP.cpp, lines 90-92 and
104-106). -/
def addReg (M : Mat) (lam : ℚ) : Mat :=
  (List.range M.length).map (fun i => (getCol M i).set i ((getCol M i).getD i 0 + lam))

/-- Result of the regularized wrapper.  success and z are the source's
return value and output argument; lambda records the accepted regularization
factor (none for the unregularized solve), mirroring the solved with
regularization factor log line; tried lists the exponents rf whose loop body
ran, in order, mirroring the loop trace. -/
structure RegResult where
  success : Bool
  z : Vec
  lambda : Option ℚ
  tried : List Int
deriving DecidableEq

/-- The regularization loop of lcp_lemke_regularized (src/LCP.cpp, lines
83-127): while rf < max_exp, solve the LCP for M + 10^rf I, accept on
verification, else advance rf by step_exp and retry with the z left by the
failed attempt (the source passes its z argument through every call).  The
fuel argument dominates the iteration count whenever step_exp is at least
one; the wrapper below supplies fuel (max_exp - min_exp) + 1.  With
step_exp = 0 the source loops forever when rf < max_exp; fuel exhaustion
returns failure. -/
def regLoop (lsolve : Mat → Vec → Vec) (M : Mat) (q : Vec)
    (pivTol zeroTol ZT : ℚ) (stepExp : Nat) (maxExp : Int) :
    Nat → Int → Vec → RegResult
  | 0, _rf, z => ⟨false, z, none, []⟩
  | fuel + 1, rf, z =>
    if rf < maxExp then
      let lam := (10 : ℚ) ^ rf
      let MM := addReg M lam
      let res := lcp_lemke lsolve MM q z pivTol zeroTol
      if res.1 = true ∧ verify_gt MM q res.2.1 ZT then
        ⟨true, res.2.1, some lam, [rf]⟩
      else
        let r := regLoop lsolve M q pivTol zeroTol ZT stepExp maxExp fuel
          (rf + stepExp) res.2.1
        ⟨r.success, r.z, r.lambda, rf :: r.tried⟩
    else ⟨false, z, none, []⟩

/-- LCP::lcp_lemke_regularized (src/LCP.cpp, lines 40-134): empty problems
succeed immediately; otherwise try the raw Lemke solve and verify with the
zero tolerance ZERO_TOL (zero_tol if positive, else n times machine
epsilon); on failure run the regularization loop from min_exp. -/
def lcp_lemke_regularized (lsolve : Mat → Vec → Vec) (M : Mat) (q z : Vec)
    (minExp : Int) (stepExp : Nat) (maxExp : Int) (pivTol zeroTol : ℚ) : RegResult :=
  if q.length = 0 then ⟨true, [], none, []⟩
  else
    let ZT := if 0 < zeroTol then zeroTol else q.length * eps
    let res := lcp_lemke lsolve M q z pivTol zeroTol
    if res.1 = true ∧ verify_ge M q res.2.1 ZT then ⟨true, res.2.1, none, []⟩
    else regLoop lsolve M q pivTol zeroTol ZT stepExp maxExp
      ((maxExp - minExp).toNat + 1) minExp res.2.1

/-- The exponent sequence the regularization loop visits: rf values from the
start while rf < maxExp, advancing by stepExp, within the fuel bound. -/
def regRange (maxExp : Int) (stepExp : Nat) : Nat → Int → List Int
  | 0, _ => []
  | fuel + 1, rf =>
    if rf < maxExp then rf :: regRange maxExp stepExp fuel (rf + stepExp) else []

/-- The exponent sequence of a full wrapper run. -/
def regRangeFull (minExp : Int) (stepExp : Nat) (maxExp : Int) : List Int :=
  regRange maxExp stepExp ((maxExp - minExp).toNat + 1) minExp

/-- The matrix the accepted solution was actually solved and verified
against: M itself for the unregularized attempt, M + lambda I for an
accepted regularization factor lambda. -/
def finalMat (M : Mat) (r : RegResult) : Mat :=
  match r.lambda with
  | none => M
  | some lam => addReg M lam

/-! ## Refinement lemmas for the conservative-advancement step and the
position loop -/

/-- Folding min over a concatenation of candidate blocks equals folding
blockwise: the workhorse for relating the source's nested loops to the
flattened candidate list. -/
theorem foldl_min_flatMap {α : Type} (cand : α → List ℚ) (step : ℚ → α → ℚ)
    (h : ∀ acc x, step acc x = (cand x).foldl min acc) :
    ∀ (l : List α) (acc : ℚ), l.foldl step acc = (l.flatMap cand).foldl min acc := by
  intro l
  induction l with
  | nil => intro acc; rfl
  | cons x xs ih =>
    intro acc
    simp only [List.foldl_cons, List.flatMap_cons, List.foldl_append, h, ih]

/-- Two sequential guarded min-updates equal a fold of min over the list of
the guarded values. -/
theorem seq_if_min (acc t1 t2 : ℚ) (c1 c2 : Prop) [Decidable c1] [Decidable c2] :
    (let acc1 := if c1 then min acc t1 else acc
     if c2 then min acc1 t2 else acc1) =
    ((if c1 then [t1] else []) ++ (if c2 then [t2] else [])).foldl min acc := by
  by_cases h1 : c1 <;> by_cases h2 : c2 <;> simp [h1, h2]

/-- The per-DOF accumulation of the source equals folding min over the
per-DOF candidate list. -/
theorem dof_step_eq (jt : JointCA) (acc : ℚ) (j : Nat) :
    (let acc1 :=
      if jt.q.getD j 0 < jt.hilimit.getD j 0 ∧ 0 < jt.qd.getD j 0 then
        min acc ((jt.hilimit.getD j 0 - jt.q.getD j 0) / jt.qd.getD j 0)
      else acc
     if jt.lolimit.getD j 0 < jt.q.getD j 0 ∧ jt.qd.getD j 0 < 0 then
       min acc1 ((jt.lolimit.getD j 0 - jt.q.getD j 0) / jt.qd.getD j 0)
     else acc1) = (dof_limit_candidates jt j).foldl min acc := by
  unfold dof_limit_candidates
  exact seq_if_min acc _ _ _ _

/-- A single guarded min-update over a pairwise record equals a fold of min
over its candidate block. -/
theorem pair_step_eq (acc : ℚ) (p : PDICA) :
    (if p.compliantA || p.compliantB then acc else min acc p.caStep) =
    ((if p.compliantA || p.compliantB then [] else [p.caStep]).foldl min acc) := by
  by_cases hc : (p.compliantA || p.compliantB) = true <;> simp [hc]

/-- The flattened pairwise candidate blocks are exactly the
conservative-advancement steps of the non-compliant records. -/
theorem pair_cand_eq (pdis : List PDICA) :
    pdis.flatMap (fun p => if p.compliantA || p.compliantB then [] else [p.caStep]) =
    rigid_pair_candidates pdis := by
  induction pdis with
  | nil => rfl
  | cons p ps ih =>
    unfold rigid_pair_candidates at ih ⊢
    cases hA : p.compliantA <;> cases hB : p.compliantB <;>
      simp [List.filter_cons, hA, hB] at ih ⊢ <;> exact ih

/-- The pairwise fold of the source equals folding min over the
non-compliant candidate steps. -/
theorem pairs_fold_eq (pdis : List PDICA) :
    ∀ acc : ℚ,
      pdis.foldl (fun acc p =>
        if p.compliantA || p.compliantB then acc else min acc p.caStep) acc =
      (rigid_pair_candidates pdis).foldl min acc := by
  intro acc
  rw [foldl_min_flatMap (fun p => if p.compliantA || p.compliantB then [] else [p.caStep])
    _ pair_step_eq pdis acc, pair_cand_eq]

/-- The joint part of the source fold equals folding min over the flattened
joint-limit candidate list. -/
theorem joints_fold_eq (arts : List (List JointCA)) (acc : ℚ) :
    arts.foldl (fun acc joints =>
      joints.foldl (fun acc jt =>
        (List.range jt.numDof).foldl (fun acc j =>
          let acc1 :=
            if jt.q.getD j 0 < jt.hilimit.getD j 0 ∧ 0 < jt.qd.getD j 0 then
              min acc ((jt.hilimit.getD j 0 - jt.q.getD j 0) / jt.qd.getD j 0)
            else acc
          if jt.lolimit.getD j 0 < jt.q.getD j 0 ∧ jt.qd.getD j 0 < 0 then
            min acc1 ((jt.lolimit.getD j 0 - jt.q.getD j 0) / jt.qd.getD j 0)
          else acc1) acc) acc) acc =
    (joint_limit_candidates arts).foldl min acc := by
  unfold joint_limit_candidates
  refine foldl_min_flatMap _ _ (fun acc joints => ?_) arts acc
  refine foldl_min_flatMap _ _ (fun acc jt => ?_) joints acc
  refine foldl_min_flatMap _ _ (fun acc j => ?_) (List.range jt.numDof) acc
  exact dof_step_eq jt acc j

/-- The source fold equals the minimum (folded from DBL_MAX) of the flattened
candidate list: joint-limit candidates first, then the facade steps of the
non-compliant pairs. -/
theorem calc_next_eq_foldmin (arts : List (List JointCA)) (pdis : List PDICA) :
    calc_next_CA_Euler_step arts pdis =
      (joint_limit_candidates arts ++ rigid_pair_candidates pdis).foldl min DBL_MAX := by
  unfold calc_next_CA_Euler_step
  rw [List.foldl_append, ← joints_fold_eq arts DBL_MAX]
  exact pairs_fold_eq pdis _

/-- The per-body position update writes only the coordinates: the velocity
fields of every body, in both encodings, are unchanged. -/
theorem integrate_positions_vel (h tc : ℚ) (qsave : List (List ℚ)) :
    ∀ (i : Nat) (bs : List BodyState),
      (integrate_positions h tc qsave i bs).map (fun b => (b.veuler, b.vspatial)) =
        bs.map (fun b => (b.veuler, b.vspatial)) := by
  intro i bs
  induction bs generalizing i with
  | nil => rfl
  | cons b rest ih => simp [integrate_positions, ih]

/-! ## Theorems for claims C4, C5 and C6 -/

/-- C4: the specification states that two spheres with overlapping volumes
(norm of cA - cB at most rA + rB) yield exactly one contact.  The source
guard is the truth value of the double d.norm() - rA - rB, so any strictly
overlapping pair is rejected.  Concretely: unit spheres with centers one unit
apart overlap strictly, yet the emitter returns no contact, contradicting the
claim and the source's own doc comment (one piece of code works for both
separated and non-separated spheres). -/
theorem find_contacts_sphere_sphere_overlap_empty :
    Vec3.normSq (Vec3.sub ⟨0, 0, 0⟩ ⟨1, 0, 0⟩) < ((1 : ℚ) + 1) ^ 2 ∧
    find_contacts_sphere_sphere ⟨0, 0, 0⟩ ⟨1, 0, 0⟩ 1 1 = [] := by
  constructor
  · decide
  · decide

/-- C5: the specification states that a penetrating box/sphere pair (gap at
most zero) yields one contact at the sphere's closest point.  The source
returns early whenever dist < NEAR_ZERO, so every penetrating pair produces
no contact and the penetration branch is dead code.  Concretely: a pair with
signed distance minus one tenth produces the empty contact list. -/
theorem find_contacts_box_sphere_penetration_empty :
    (-1 / 10 : ℚ) ≤ 0 ∧
    find_contacts_box_sphere (-1 / 10) ⟨0, 0, 0⟩ ⟨0, 0, 1⟩ NEAR_ZERO = [] := by
  constructor
  · decide
  · decide

/-- C6: the specification defines the line-search merit as
s(q) = max(0, -min_gap) plus the joint-limit violations, hence strictly
positive under penetration and zero for a separated, limit-respecting
configuration.  The source computes max(min_gap, 0) - the negation is
missing - so with one pair at gap minus one (penetration) it returns zero,
and with one pair at gap five (no penetration, no joints) it returns five:
both parts of the claim fail on the code. -/
theorem compute_s_sign_flip :
    compute_s [-1] [] = 0 ∧ compute_s [5] [] = 5 := by
  constructor
  · decide
  · decide

/-! ## Theorems for claims C7, C8 and C10 -/

/-- C7 counterexample: the claim says the returned step is the minimum over
the joint candidates and the facade step of every pairwise-distance record.
With no articulated bodies and a single record whose first body is compliant
and whose facade step is one half, that minimum would be one half, but the
source skips the compliant pair and returns DBL_MAX. -/
theorem calc_next_CA_Euler_step_compliant_cex :
    calc_next_CA_Euler_step [] [⟨true, false, 1 / 2⟩] = DBL_MAX ∧
    (1 / 2 : ℚ) < DBL_MAX := by
  constructor
  · decide
  · decide

/-- C7 (amended): calc_next_CA_Euler_step returns the minimum, seeded with
DBL_MAX, over (a) the time-to-limit of every joint DOF moving toward a limit
and (b) the facade conservative-advancement step of every pairwise-distance
record in which neither rigid body is compliant; in particular it returns
DBL_MAX when no candidate exists. -/
theorem calc_next_CA_Euler_step_min_candidates (arts : List (List JointCA))
    (pdis : List PDICA) :
    calc_next_CA_Euler_step arts pdis =
      (joint_limit_candidates arts ++ rigid_pair_candidates pdis).foldl min DBL_MAX :=
  calc_next_eq_foldmin arts pdis

/-- C10: compliant pairs never contribute an event time - the result is
unchanged when they are removed from the pairwise-distance records - and a
scene whose records all have a compliant side and whose joints produce no
limit candidate yields DBL_MAX. -/
theorem calc_next_CA_Euler_step_ignores_compliant (arts : List (List JointCA))
    (pdis : List PDICA) :
    calc_next_CA_Euler_step arts pdis =
      calc_next_CA_Euler_step arts
        (pdis.filter (fun p => !(p.compliantA || p.compliantB))) ∧
    ((∀ p ∈ pdis, p.compliantA || p.compliantB) →
      joint_limit_candidates arts = [] →
      calc_next_CA_Euler_step arts pdis = DBL_MAX) := by
  constructor
  · rw [calc_next_eq_foldmin, calc_next_eq_foldmin]
    have hc : rigid_pair_candidates
        (pdis.filter (fun p => !(p.compliantA || p.compliantB))) =
        rigid_pair_candidates pdis := by
      unfold rigid_pair_candidates
      rw [List.filter_filter]
      have hfun : (fun a : PDICA =>
          !(a.compliantA || a.compliantB) && !(a.compliantA || a.compliantB)) =
          fun p : PDICA => !(p.compliantA || p.compliantB) := by
        funext p
        cases p.compliantA <;> cases p.compliantB <;> rfl
      rw [hfun]
    rw [hc]
  · intro hall hj
    rw [calc_next_eq_foldmin, hj]
    have hc : rigid_pair_candidates pdis = [] := by
      unfold rigid_pair_candidates
      have hnil : pdis.filter (fun p => !(p.compliantA || p.compliantB)) = [] := by
        rw [List.filter_eq_nil_iff]
        intro p hp
        have := hall p hp
        simp [this]
      rw [hnil]
      rfl
    rw [hc]
    rfl

/-- C10 witness: a scene with one fully compliant pair, no articulated
bodies, yields DBL_MAX. -/
theorem calc_next_CA_Euler_step_ignores_compliant_witness :
    calc_next_CA_Euler_step [] [⟨true, true, 7⟩] = DBL_MAX :=
  (calc_next_CA_Euler_step_ignores_compliant [] [⟨true, true, 7⟩]).2
    (by decide) (by decide)

/-- C8: the position-integration loop of do_mini_step writes only the
generalized coordinates: for every fuel bound, every starting elapsed time
and every state, each body's generalized velocity - in both the Euler and the
spatial encoding - after the loop equals its value when the loop was entered.
Velocities are first modified only by the later velocity-integration phase
of do_mini_step. -/
theorem position_loop_preserves_velocities (calcPairwise : SimState → List PDICA)
    (caStepF : SimState → ℚ) (minStep dt : ℚ) (qsave : List (List ℚ)) :
    ∀ (fuel : Nat) (h : ℚ) (s : SimState),
      ((position_integration_loop calcPairwise caStepF minStep dt qsave fuel h s).1).bodies.map
          (fun b => (b.veuler, b.vspatial)) =
        s.bodies.map (fun b => (b.veuler, b.vspatial)) := by
  intro fuel
  induction fuel with
  | zero => intro h s; rfl
  | succ f ih =>
    intro h s
    unfold position_integration_loop
    by_cases hh : h < dt
    · rw [if_pos hh]
      by_cases hca : caStepF ⟨s.bodies, calcPairwise s⟩ ≤ 0
      · rw [if_pos hca]
      · rw [if_neg hca]
        rw [ih]
        exact integrate_positions_vel _ _ _ 0 s.bodies
    · rw [if_neg hh]

/-! ## Supporting lemmas for the LCP theorems -/

theorem foldl_min_le_init : ∀ (xs : List ℚ) (b : ℚ), xs.foldl min b ≤ b := by
  intro xs
  induction xs with
  | nil => intro b; exact le_refl b
  | cons x xs ih =>
    intro b
    exact le_trans (ih (min b x)) (min_le_left b x)

theorem foldl_min_le_mem : ∀ (xs : List ℚ) (b a : ℚ), a ∈ xs → xs.foldl min b ≤ a := by
  intro xs
  induction xs with
  | nil => intro b a h; exact absurd h (List.not_mem_nil a)
  | cons x xs ih =>
    intro b a h
    rcases List.mem_cons.mp h with rfl | h2
    · exact le_trans (foldl_min_le_init xs (min b a)) (min_le_right b a)
    · exact ih (min b x) a h2

theorem minList_le_of_mem {l : Vec} {a : ℚ} (h : a ∈ l) : minList l ≤ a := by
  cases l with
  | nil => exact absurd h (List.not_mem_nil a)
  | cons x xs =>
    unfold minList
    rcases List.mem_cons.mp h with rfl | h2
    · calc xs.foldl min a ≤ min a a := by
            have := foldl_min_le_init xs a
            simpa using this
        _ ≤ a := min_le_left a a
    · exact foldl_min_le_mem xs x a h2

theorem le_foldl_max_init : ∀ (xs : List ℚ) (b : ℚ), b ≤ xs.foldl max b := by
  intro xs
  induction xs with
  | nil => intro b; exact le_refl b
  | cons x xs ih =>
    intro b
    exact le_trans (le_max_left b x) (ih (max b x))

theorem le_foldl_max_mem : ∀ (xs : List ℚ) (b a : ℚ), a ∈ xs → a ≤ xs.foldl max b := by
  intro xs
  induction xs with
  | nil => intro b a h; exact absurd h (List.not_mem_nil a)
  | cons x xs ih =>
    intro b a h
    rcases List.mem_cons.mp h with rfl | h2
    · exact le_trans (le_max_right b a) (le_foldl_max_init xs (max b a))
    · exact ih (max b x) a h2

theorem le_maxList_of_mem {l : Vec} {a : ℚ} (h : a ∈ l) : a ≤ maxList l := by
  cases l with
  | nil => exact absurd h (List.not_mem_nil a)
  | cons x xs =>
    unfold maxList
    rcases List.mem_cons.mp h with rfl | h2
    · exact le_foldl_max_init xs a
    · exact le_foldl_max_mem xs x a h2

theorem abs_sum_le_of_abs_le {l : Vec} {c : ℚ} (h : ∀ p ∈ l, |p| ≤ c) :
    |l.sum| ≤ l.length * c := by
  induction l with
  | nil => simp
  | cons x xs ih =>
    have hx : |x| ≤ c := h x (List.mem_cons_self x xs)
    have hxs : |xs.sum| ≤ xs.length * c := ih (fun p hp => h p (List.mem_cons_of_mem x hp))
    calc |(x :: xs).sum| = |x + xs.sum| := by simp
      _ ≤ |x| + |xs.sum| := abs_add x xs.sum
      _ ≤ c + xs.length * c := add_le_add hx hxs
      _ = (x :: xs).length * c := by
          simp only [List.length_cons]
          push_cast
          ring

theorem foldl_set_length (l : List (Nat × ℚ)) :
    ∀ z : Vec, (l.foldl (fun z p => z.set p.1 p.2) z).length = z.length := by
  induction l with
  | nil => intro z; rfl
  | cons p ps ih => intro z; rw [List.foldl_cons, ih, List.length_set]

theorem scatterZ_length (n : Nat) (bas : List Nat) (x : Vec) :
    (scatterZ n bas x).length = n := by
  unfold scatterZ
  rw [List.length_take, foldl_set_length, List.length_replicate]
  omega

theorem lemkeLoop_z_length (lsolve : Mat → Vec → Vec) (M : Mat) (n : Nat)
    (pivTol zeroTol : ℚ) :
    ∀ (fuel : Nat) (x : Vec) (Bl : Mat) (bas : List Nat) (leaving pivots : Nat),
      ((lemkeLoop lsolve M n pivTol zeroTol fuel x Bl bas leaving pivots).2.1).length = n := by
  intro fuel
  induction fuel with
  | zero =>
    intro x Bl bas leaving pivots
    simp [lemkeLoop]
  | succ f ih =>
    intro x Bl bas leaving pivots
    unfold lemkeLoop
    dsimp only
    repeat' split
    all_goals first
      | exact scatterZ_length n bas x
      | exact ih _ _ _ _ _
      | simp

theorem lcp_lemke_z_length (lsolve : Mat → Vec → Vec) (M : Mat) (q z : Vec)
    (pivTol zeroTol : ℚ) :
    ((lcp_lemke lsolve M q z pivTol zeroTol).2.1).length = q.length := by
  unfold lcp_lemke
  dsimp only
  repeat' split
  all_goals first
    | exact scatterZ_length _ _ _
    | exact lemkeLoop_z_length _ _ _ _ _ _ _ _ _ _ _
    | simp_all

theorem lemkeLoop_pivots_le (lsolve : Mat → Vec → Vec) (M : Mat) (n : Nat)
    (pivTol zeroTol : ℚ) :
    ∀ (fuel : Nat) (x : Vec) (Bl : Mat) (bas : List Nat) (leaving pivots : Nat),
      (lemkeLoop lsolve M n pivTol zeroTol fuel x Bl bas leaving pivots).2.2 ≤
        pivots + fuel := by
  intro fuel
  induction fuel with
  | zero =>
    intro x Bl bas leaving pivots
    simp [lemkeLoop]
  | succ f ih =>
    intro x Bl bas leaving pivots
    unfold lemkeLoop
    dsimp only
    repeat' split
    all_goals first
      | exact le_trans (ih _ _ _ _ _) (by omega)
      | omega
      | simp

theorem lemkeLoopSp_pivots_le (lsolve : Mat → Vec → Vec) (M : Mat) (n : Nat)
    (pivTol zeroTol : ℚ) (dStale : Vec) :
    ∀ (fuel : Nat) (x : Vec) (Bl : Mat) (bas : List Nat) (leaving pivots : Nat),
      (lemkeLoopSp lsolve M n pivTol zeroTol dStale fuel x Bl bas leaving pivots).2.2 ≤
        pivots + fuel := by
  intro fuel
  induction fuel with
  | zero =>
    intro x Bl bas leaving pivots
    simp [lemkeLoopSp]
  | succ f ih =>
    intro x Bl bas leaving pivots
    unfold lemkeLoopSp
    dsimp only
    repeat' split
    all_goals first
      | exact le_trans (ih _ _ _ _ _) (by omega)
      | omega
      | simp

/-- The verification inequalities imply the feasibility triple of the claim:
entrywise lower bounds on z and w, and the complementarity residual bounded
by n times the tolerance. -/
theorem verify_bounds (Mm : Mat) (q z1 : Vec) (ZT : ℚ)
    (h1 : -ZT ≤ minList z1) (h2 : -ZT ≤ minList (wVec Mm q z1))
    (h3 : -ZT ≤ minList (prodZW z1 (wVec Mm q z1)))
    (h4 : maxList (prodZW z1 (wVec Mm q z1)) < ZT)
    (hlen : z1.length ≤ q.length) (hZT : 0 ≤ ZT) :
    (∀ zi ∈ z1, -ZT ≤ zi) ∧ (∀ wi ∈ wVec Mm q z1, -ZT ≤ wi) ∧
      |dotV z1 (wVec Mm q z1)| ≤ q.length * ZT := by
  refine ⟨fun zi hz => le_trans h1 (minList_le_of_mem hz),
          fun wi hw => le_trans h2 (minList_le_of_mem hw), ?_⟩
  have habs : ∀ p ∈ prodZW z1 (wVec Mm q z1), |p| ≤ ZT := by
    intro p hp
    rw [abs_le]
    exact ⟨le_trans h3 (minList_le_of_mem hp),
      le_of_lt (lt_of_le_of_lt (le_maxList_of_mem hp) h4)⟩
  have hlen2 : ((prodZW z1 (wVec Mm q z1)).length : ℚ) ≤ (q.length : ℚ) := by
    have : (prodZW z1 (wVec Mm q z1)).length ≤ q.length := by
      unfold prodZW
      rw [List.length_zipWith]
      exact le_trans (min_le_left _ _) hlen
    exact_mod_cast this
  calc |dotV z1 (wVec Mm q z1)|
      = |(prodZW z1 (wVec Mm q z1)).sum| := rfl
    _ ≤ (prodZW z1 (wVec Mm q z1)).length * ZT := abs_sum_le_of_abs_le habs
    _ ≤ q.length * ZT := mul_le_mul_of_nonneg_right hlen2 hZT

/-- On failure the regularization loop has attempted exactly the exponent
sequence described by regRange. -/
theorem regLoop_tried_of_fail (lsolve : Mat → Vec → Vec) (M : Mat) (q : Vec)
    (pivTol zeroTol ZT : ℚ) (stepExp : Nat) (maxExp : Int) :
    ∀ (fuel : Nat) (rf : Int) (z : Vec),
      (regLoop lsolve M q pivTol zeroTol ZT stepExp maxExp fuel rf z).success = false →
      (regLoop lsolve M q pivTol zeroTol ZT stepExp maxExp fuel rf z).tried =
        regRange maxExp stepExp fuel rf := by
  intro fuel
  induction fuel with
  | zero => intro rf z _; rfl
  | succ f ih =>
    intro rf z hfail
    unfold regLoop at hfail ⊢
    unfold regRange
    dsimp only at hfail ⊢
    by_cases hlt : rf < maxExp
    · simp only [if_pos hlt] at hfail ⊢
      by_cases hok : (lcp_lemke lsolve (addReg M ((10 : ℚ) ^ rf)) q z pivTol zeroTol).1 = true ∧
          verify_gt (addReg M ((10 : ℚ) ^ rf)) q
            (lcp_lemke lsolve (addReg M ((10 : ℚ) ^ rf)) q z pivTol zeroTol).2.1 ZT
      · rw [if_pos hok] at hfail
        exact absurd hfail (by simp)
      · rw [if_neg hok] at hfail ⊢
        dsimp only at hfail ⊢
        exact congrArg (List.cons rf) (ih _ _ hfail)
    · simp only [if_neg hlt] at hfail ⊢

/-- A successful regularization loop returns a z verified against
M + lambda I for the recorded factor lambda, with z of the problem size. -/
theorem regLoop_success_spec (lsolve : Mat → Vec → Vec) (M : Mat) (q : Vec)
    (pivTol zeroTol ZT : ℚ) (stepExp : Nat) (maxExp : Int) :
    ∀ (fuel : Nat) (rf : Int) (z : Vec),
      (regLoop lsolve M q pivTol zeroTol ZT stepExp maxExp fuel rf z).success = true →
      ∃ lam, (regLoop lsolve M q pivTol zeroTol ZT stepExp maxExp fuel rf z).lambda = some lam ∧
        verify_gt (addReg M lam) q
          (regLoop lsolve M q pivTol zeroTol ZT stepExp maxExp fuel rf z).z ZT ∧
        (regLoop lsolve M q pivTol zeroTol ZT stepExp maxExp fuel rf z).z.length = q.length := by
  intro fuel
  induction fuel with
  | zero => intro rf z hs; exact absurd hs (by simp [regLoop])
  | succ f ih =>
    intro rf z hs
    unfold regLoop at hs ⊢
    dsimp only at hs ⊢
    by_cases hlt : rf < maxExp
    · rw [if_pos hlt] at hs ⊢
      by_cases hok : (lcp_lemke lsolve (addReg M ((10 : ℚ) ^ rf)) q z pivTol zeroTol).1 = true ∧
          verify_gt (addReg M ((10 : ℚ) ^ rf)) q
            (lcp_lemke lsolve (addReg M ((10 : ℚ) ^ rf)) q z pivTol zeroTol).2.1 ZT
      · rw [if_pos hok] at hs ⊢
        exact ⟨(10 : ℚ) ^ rf, rfl, hok.2, lcp_lemke_z_length _ _ _ _ _ _⟩
      · rw [if_neg hok] at hs ⊢
        exact ih _ _ hs
    · rw [if_neg hlt] at hs
      exact absurd hs (by simp)

/-- Membership in the visited exponent sequence, given positive step and
sufficient fuel: exactly the arithmetic progression from the start that stays
strictly below maxExp. -/
theorem mem_regRange (stepExp : Nat) (hstep : 1 ≤ stepExp) (maxExp : Int) :
    ∀ (fuel : Nat) (rf e : Int), (maxExp - rf).toNat < fuel →
      (e ∈ regRange maxExp stepExp fuel rf ↔
        ∃ k : Nat, e = rf + k * stepExp ∧ e < maxExp) := by
  intro fuel
  induction fuel with
  | zero => intro rf e h; omega
  | succ f ih =>
    intro rf e hfuel
    unfold regRange
    by_cases hlt : rf < maxExp
    · rw [if_pos hlt]
      have hrec := ih (rf + stepExp) e (by omega)
      constructor
      · intro hmem
        rcases List.mem_cons.mp hmem with rfl | hmem2
        · exact ⟨0, by simp, hlt⟩
        · obtain ⟨k, hk, hke⟩ := hrec.mp hmem2
          refine ⟨k + 1, ?_, hke⟩
          push_cast
          linarith
      · rintro ⟨k, hk, hke⟩
        cases k with
        | zero =>
          simp only [Nat.cast_zero, zero_mul, add_zero] at hk
          exact hk ▸ List.mem_cons_self rf _
        | succ k2 =>
          refine List.mem_cons_of_mem rf (hrec.mpr ⟨k2, ?_, hke⟩)
          push_cast at hk ⊢
          linarith
    · rw [if_neg hlt]
      simp only [List.not_mem_nil, false_iff]
      rintro ⟨k, hk, hke⟩
      have hpos : (0 : Int) ≤ (k : Int) * (stepExp : Int) := by positivity
      omega

/-- A successful wrapper run either passed the unregularized verification
against M, or the regularized verification against M + lambda I for the
recorded lambda; in both cases the returned z has the problem size. -/
theorem wrapper_success_spec (lsolve : Mat → Vec → Vec) (M : Mat) (q z0 : Vec)
    (minExp : Int) (stepExp : Nat) (maxExp : Int) (pivTol zeroTol : ℚ)
    (hn : 1 ≤ q.length)
    (hs : (lcp_lemke_regularized lsolve M q z0 minExp stepExp maxExp pivTol zeroTol).success = true) :
    ((lcp_lemke_regularized lsolve M q z0 minExp stepExp maxExp pivTol zeroTol).lambda = none ∧
      verify_ge M q (lcp_lemke_regularized lsolve M q z0 minExp stepExp maxExp pivTol zeroTol).z
        (if 0 < zeroTol then zeroTol else q.length * eps) ∧
      (lcp_lemke_regularized lsolve M q z0 minExp stepExp maxExp pivTol zeroTol).z.length = q.length) ∨
    (∃ lam, (lcp_lemke_regularized lsolve M q z0 minExp stepExp maxExp pivTol zeroTol).lambda = some lam ∧
      verify_gt (addReg M lam) q
        (lcp_lemke_regularized lsolve M q z0 minExp stepExp maxExp pivTol zeroTol).z
        (if 0 < zeroTol then zeroTol else q.length * eps) ∧
      (lcp_lemke_regularized lsolve M q z0 minExp stepExp maxExp pivTol zeroTol).z.length = q.length) := by
  unfold lcp_lemke_regularized at hs ⊢
  dsimp only at hs ⊢
  rw [if_neg (by omega : ¬ q.length = 0)] at hs ⊢
  by_cases hok : (lcp_lemke lsolve M q z0 pivTol zeroTol).1 = true ∧
      verify_ge M q (lcp_lemke lsolve M q z0 pivTol zeroTol).2.1
        (if 0 < zeroTol then zeroTol else q.length * eps)
  · rw [if_pos hok] at hs ⊢
    exact Or.inl ⟨rfl, hok.2, lcp_lemke_z_length _ _ _ _ _ _⟩
  · rw [if_neg hok] at hs ⊢
    exact Or.inr (regLoop_success_spec _ _ _ _ _ _ _ _ _ _ _ hs)

/-! ## Theorems for claims C1, C2, C3 and C9 -/

/-- C2 counterexample: the claim asserts that min(q) at least -tau0 already
triggers the trivial exit with z = 0 and no pivoting.  At the boundary
min(q) = -tau0 (here q = [-1] with zero_tol = 1, so tau0 = 1) the source's
strict comparison min(q) > -tau0 fails, the solver pivots once and returns
z = [1], not the zero vector.  (For this one-dimensional run every
floating-point operation of the original code is exact, so the exact
instantiation gauss_solve coincides with the backend.) -/
theorem lcp_lemke_trivial_boundary_cex :
    ((-1 : ℚ) ≥ -1) ∧
    lcp_lemke gauss_solve [[1]] [-1] [] 0 1 = (true, [1], 1) := by
  constructor
  · decide
  · decide

/-- C2 (amended): if min(q) is STRICTLY greater than -tau0, where tau0 is
zero_tol if positive and otherwise machine epsilon times the infinity norm
of M times n, then lcp_lemke returns success with the zero vector of length
n, taking the trivial-exit path with no pivoting iterations. -/
theorem lcp_lemke_trivial_exit (lsolve : Mat → Vec → Vec) (M : Mat) (q z : Vec)
    (pivTol zeroTol : ℚ) (h1 : 1 ≤ q.length)
    (h2 : -(if zeroTol ≤ 0 then eps * normInfMat M q.length * q.length else zeroTol) <
      minList q) :
    lcp_lemke lsolve M q z pivTol zeroTol = (true, List.replicate q.length 0, 0) := by
  unfold lcp_lemke
  dsimp only
  rw [if_neg (by omega : ¬ q.length = 0), if_pos h2]

/-- C2 witness: the spec's own example - M the 3-by-3 identity,
q = [1, 2, 3], default tolerances - takes the trivial exit and returns the
zero vector with zero pivots. -/
theorem lcp_lemke_trivial_exit_witness :
    lcp_lemke gauss_solve [[1, 0, 0], [0, 1, 0], [0, 0, 1]] [1, 2, 3] [] 0 0 =
      (true, List.replicate ([1, 2, 3] : Vec).length 0, 0) :=
  lcp_lemke_trivial_exit gauss_solve [[1, 0, 0], [0, 1, 0], [0, 0, 1]] [1, 2, 3] [] 0 0
    (by decide) (by decide)

/-- C3 counterexample: with the default exponents (min_exp = -20,
step_exp = 4, max_exp = -4) on the infeasible instance M = [[-1]],
q = [-1] - where the raw solve and every regularized solve end in ray
termination - the wrapper returns failure having attempted only the
exponents -20, -16, -12, -8: max_exp = -4 is never attempted even though
max_exp - min_exp is a multiple of step_exp, contradicting the claim that
the progression runs up to and including max_exp. -/
theorem lcp_regularization_excludes_max_exp_cex :
    (lcp_lemke_regularized gauss_solve [[-1]] [-1] [] (-20) 4 (-4) 0 0).success = false ∧
    (lcp_lemke_regularized gauss_solve [[-1]] [-1] [] (-20) 4 (-4) 0 0).tried =
      [-20, -16, -12, -8] ∧
    ((-4 : Int) - (-20)) % 4 = 0 ∧
    (-4 : Int) ∉ (lcp_lemke_regularized gauss_solve [[-1]] [-1] [] (-20) 4 (-4) 0 0).tried := by
  refine ⟨by decide, by decide, by decide, by decide⟩

/-- C3 (amended): when the wrapper returns failure it has attempted exactly
the exponents rf = min_exp, min_exp + step_exp, ... for as long as
rf < max_exp - the half-open progression; max_exp itself is never attempted
- and that attempted sequence contains an exponent e precisely when e lies
on the progression and e < max_exp. -/
theorem lcp_regularization_exponent_range (lsolve : Mat → Vec → Vec) (M : Mat)
    (q z : Vec) (minExp : Int) (stepExp : Nat) (maxExp : Int) (pivTol zeroTol : ℚ)
    (hstep : 1 ≤ stepExp) :
    ((lcp_lemke_regularized lsolve M q z minExp stepExp maxExp pivTol zeroTol).success = false →
      (lcp_lemke_regularized lsolve M q z minExp stepExp maxExp pivTol zeroTol).tried =
        regRangeFull minExp stepExp maxExp) ∧
    (∀ e : Int, e ∈ regRangeFull minExp stepExp maxExp ↔
      ∃ k : Nat, e = minExp + k * stepExp ∧ e < maxExp) := by
  constructor
  · intro hfail
    unfold lcp_lemke_regularized at hfail ⊢
    dsimp only at hfail ⊢
    by_cases h0 : q.length = 0
    · rw [if_pos h0] at hfail
      exact absurd hfail (by simp)
    · rw [if_neg h0] at hfail ⊢
      by_cases hok : (lcp_lemke lsolve M q z pivTol zeroTol).1 = true ∧
          verify_ge M q (lcp_lemke lsolve M q z pivTol zeroTol).2.1
            (if 0 < zeroTol then zeroTol else q.length * eps)
      · rw [if_pos hok] at hfail
        exact absurd hfail (by simp)
      · rw [if_neg hok] at hfail ⊢
        exact regLoop_tried_of_fail _ _ _ _ _ _ _ _ _ _ _ hfail
  · intro e
    exact mem_regRange stepExp hstep maxExp _ minExp e (by omega)

/-- C3 witness: the characterization instantiated at the defaults on the
counterexample instance; in particular membership of max_exp = -4 itself
reduces to the unsatisfiable condition -4 < -4. -/
theorem lcp_regularization_exponent_range_witness :
    ((-4 : Int) ∈ regRangeFull (-20) 4 (-4) ↔
      ∃ k : Nat, (-4 : Int) = -20 + k * 4 ∧ (-4 : Int) < -4) :=
  (lcp_regularization_exponent_range gauss_solve [[-1]] [-1] [] (-20) 4 (-4) 0 0
    (by decide)).2 (-4)

/-- C9: for problems of size at least one, the dense and the sparse Lemke
solvers perform at most min(1000, 50 n) pivot iterations, and when the
iteration budget is exhausted without the artificial variable leaving the
basis the loop reports failure, so every call produces a definite
success-or-failure answer. -/
theorem lcp_lemke_iteration_cap (lsolve : Mat → Vec → Vec) (M : Mat) (q z : Vec)
    (pivTol zeroTol : ℚ) (dStale : Vec) (x0 : Vec) (Bl0 : Mat) (bas0 : List Nat)
    (lv0 p0 : Nat) (_hn : 1 ≤ q.length) :
    (lcp_lemke lsolve M q z pivTol zeroTol).2.2 ≤ min 1000 (50 * q.length) ∧
    (lcp_lemke_sp lsolve M q z pivTol zeroTol dStale).2.2 ≤ min 1000 (50 * q.length) ∧
    (lemkeLoop lsolve M q.length pivTol zeroTol 0 x0 Bl0 bas0 lv0 p0).1 = false ∧
    (lemkeLoopSp lsolve M q.length pivTol zeroTol dStale 0 x0 Bl0 bas0 lv0 p0).1 = false := by
  refine ⟨?_, ?_, rfl, rfl⟩
  · unfold lcp_lemke
    dsimp only
    repeat' split
    all_goals first
      | exact le_trans (lemkeLoop_pivots_le lsolve M q.length pivTol _ _ _ _ _ _ _) (by omega)
      | simp
  · unfold lcp_lemke_sp
    dsimp only
    repeat' split
    all_goals first
      | exact le_trans (lemkeLoopSp_pivots_le lsolve M q.length pivTol _ dStale _ _ _ _ _ _) (by omega)
      | simp

/-- C9 witness: the bounds at the concrete instance M = [[1]], q = [-1]. -/
theorem lcp_lemke_iteration_cap_witness :
    (lcp_lemke gauss_solve [[1]] [-1] [] 0 0).2.2 ≤ min 1000 (50 * ([-1] : Vec).length) ∧
    (lcp_lemke_sp gauss_solve [[1]] [-1] [] 0 0 []).2.2 ≤ min 1000 (50 * ([-1] : Vec).length) ∧
    (lemkeLoop gauss_solve [[1]] ([-1] : Vec).length 0 0 0 [] [] [] 0 0).1 = false ∧
    (lemkeLoopSp gauss_solve [[1]] ([-1] : Vec).length 0 0 [] 0 [] [] [] 0 0).1 = false :=
  lcp_lemke_iteration_cap gauss_solve [[1]] [-1] [] 0 0 [] [] [] [] 0 0 (by decide)

/-- C1: whenever the regularized wrapper reports success, the returned z
satisfies, entrywise, z at least -tau0 and M' z + q at least -tau0, and the
complementarity residual |z (M' z + q)| is at most n tau0, where M' is the
matrix actually verified (M itself, or M + lambda I for the accepted factor)
and tau0 is zero_tol if positive, otherwise n times machine epsilon. -/
theorem lcp_lemke_regularized_feasibility (lsolve : Mat → Vec → Vec) (M : Mat)
    (q z0 : Vec) (minExp : Int) (stepExp : Nat) (maxExp : Int) (pivTol zeroTol : ℚ)
    (r : RegResult) (ZT : ℚ)
    (hr : r = lcp_lemke_regularized lsolve M q z0 minExp stepExp maxExp pivTol zeroTol)
    (hZT : ZT = if 0 < zeroTol then zeroTol else q.length * eps)
    (hn : 1 ≤ q.length) (hs : r.success = true) :
    (∀ zi ∈ r.z, -ZT ≤ zi) ∧ (∀ wi ∈ wVec (finalMat M r) q r.z, -ZT ≤ wi) ∧
      |dotV r.z (wVec (finalMat M r) q r.z)| ≤ q.length * ZT := by
  have hZTpos : (0 : ℚ) ≤ ZT := by
    rw [hZT]
    split
    · linarith
    · have hq1 : (1 : ℚ) ≤ (q.length : ℚ) := by exact_mod_cast hn
      have heps : (0 : ℚ) < eps := by norm_num [eps]
      nlinarith
  subst hr
  rcases wrapper_success_spec lsolve M q z0 minExp stepExp maxExp pivTol zeroTol hn hs with
    ⟨hlam, hver, hlen⟩ | ⟨lam, hlam, hver, hlen⟩
  · have hMf : finalMat M (lcp_lemke_regularized lsolve M q z0 minExp stepExp maxExp pivTol zeroTol) = M := by
      unfold finalMat
      rw [hlam]
    rw [← hZT] at hver
    obtain ⟨hv1, hv2, hv3, hv4⟩ := hver
    rw [hMf]
    exact verify_bounds M q _ ZT hv1 hv2 hv3 hv4 (le_of_eq hlen) hZTpos
  · have hMf : finalMat M (lcp_lemke_regularized lsolve M q z0 minExp stepExp maxExp pivTol zeroTol) = addReg M lam := by
      unfold finalMat
      rw [hlam]
    rw [← hZT] at hver
    obtain ⟨hv1, hv2, hv3, hv4⟩ := hver
    rw [hMf]
    exact verify_bounds (addReg M lam) q _ ZT (le_of_lt hv1) (le_of_lt hv2) (le_of_lt hv3)
      hv4 (le_of_eq hlen) hZTpos

/-- C1 witness: the wrapper at M = [[1]], q = [1] succeeds through the
unregularized trivial exit, and the feasibility triple holds with
tau0 = 1 times machine epsilon. -/
theorem lcp_lemke_regularized_feasibility_witness :
    (∀ zi ∈ (lcp_lemke_regularized gauss_solve [[1]] [1] [] (-20) 4 (-4) 0 0).z, -eps ≤ zi) ∧
    (∀ wi ∈ wVec (finalMat [[1]]
        (lcp_lemke_regularized gauss_solve [[1]] [1] [] (-20) 4 (-4) 0 0)) [1]
        (lcp_lemke_regularized gauss_solve [[1]] [1] [] (-20) 4 (-4) 0 0).z, -eps ≤ wi) ∧
    |dotV (lcp_lemke_regularized gauss_solve [[1]] [1] [] (-20) 4 (-4) 0 0).z
        (wVec (finalMat [[1]]
          (lcp_lemke_regularized gauss_solve [[1]] [1] [] (-20) 4 (-4) 0 0)) [1]
          (lcp_lemke_regularized gauss_solve [[1]] [1] [] (-20) 4 (-4) 0 0).z)| ≤
      (([1] : Vec).length : ℚ) * eps :=
  lcp_lemke_regularized_feasibility gauss_solve [[1]] [1] [] (-20) 4 (-4) 0 0
    (lcp_lemke_regularized gauss_solve [[1]] [1] [] (-20) 4 (-4) 0 0) eps rfl
    (by decide) (by decide) (by decide)

end Moby
